import Mathlib

/-!
Verification of the `android-fontconfig` manifest loader and resolution
engine (`src/config_parser.rs`).

The development shallowly embeds the Rust source:

* the data model (`FontAlias`, `FontAxis`, `FontEntry`, `FontFamily`,
  `AndroidFontConfig`) is transcribed field by field;
* `AndroidFontConfig::parse` is embedded as a step function over an explicit
  `ParseState`, consuming a list of XML parse events; a Rust `unwrap` that can
  actually fail (`Vec::last().unwrap()` on an empty element stack,
  `str::parse::<i32>().unwrap()` on a malformed attribute,
  `Option::unwrap` on an absent font path) is modelled by the step
  returning `none` (panic); steps that cannot fail return `some`;
* the query operations (`resolve_font_family_by_alias`,
  `font_path_by_family_and_lang`, `default_font_path_by_lang`,
  `all_font_paths`, `select_family_by_name`) are transcribed as recursive
  scans mirroring the Rust loops, again with `Option` capturing the
  reachable `unwrap` panics.

Rust string primitives used by the source (`str::trim`, `str::contains`,
`str::split` with a one-character pattern, `str::parse::<i32>`) are modelled
structurally over `String.data` so that every definition evaluates inside the
kernel.  `rustTrim` trims the ASCII whitespace characters; the exotic Unicode
whitespace accepted by Rust's `char::is_whitespace` is immaterial to every
claim.  The `stylevalue` attribute of an `<axis>` element is a Rust `f64`;
its numeric value is never consulted by any query, so it is kept as the raw
attribute text.
-/

/-- Rust whitespace test, restricted to the ASCII whitespace characters. -/
def isWhitespaceChar (c : Char) : Bool :=
  c = ' ' ∨ c = '\t' ∨ c = '\n' ∨ c = '\r'

/-- Model of Rust `str::trim`: drop whitespace from both ends. -/
def rustTrim (s : String) : String :=
  String.mk ((((s.data.dropWhile isWhitespaceChar).reverse).dropWhile isWhitespaceChar).reverse)

/-- Model of Rust `str::contains` with a one-character pattern. -/
def containsChar (s : String) (c : Char) : Bool :=
  s.data.any (fun x => x = c)

/-- Splitting of a character list at every occurrence of `c`; empty pieces are
kept, so the result always has one more piece than there are separators. -/
def splitCharList (c : Char) : List Char → List (List Char)
  | [] => [[]]
  | x :: xs =>
    if x = c then [] :: splitCharList c xs
    else
      match splitCharList c xs with
      | [] => [[x]]
      | g :: gs => (x :: g) :: gs

/-- Model of Rust `str::split` with a one-character pattern. -/
def splitChar (s : String) (c : Char) : List String :=
  (splitCharList c s.data).map (fun l => String.mk l)

/-- Digit accumulation for `parseI32`; fails on a non-digit character. -/
def digitsToNat : List Char → Option Nat
  | [] => some 0
  | c :: cs =>
    if c.isDigit then
      (digitsToNat cs).map (fun n => (c.toNat - 48) * 10 ^ cs.length + n)
    else none

/-- Model of Rust `str::parse::<i32>`: an optional sign followed by at least
one digit, rejecting anything else and rejecting values outside the `i32`
range. -/
def parseI32 (s : String) : Option Int :=
  let signed : Bool × List Char :=
    match s.data with
    | '-' :: rest => (true, rest)
    | '+' :: rest => (false, rest)
    | cs => (false, cs)
  match signed.2 with
  | [] => none
  | _ :: _ =>
    match digitsToNat signed.2 with
    | some n =>
      let v : Int := if signed.1 then -(n : Int) else (n : Int)
      if -2147483648 ≤ v ∧ v ≤ 2147483647 then some v else none
    | none => none

/-- The fixed system font directory prepended to every font file name
(`"/system/fonts/"` in the source). -/
def systemFontsDir : String := "/system/fonts/"

/-- Transcription of the Rust struct `FontAlias`.  The Rust field `to` is a
reserved word in Lean and is rendered `toName`. -/
structure FontAlias where
  name : String
  toName : String
  weight : Option Int
deriving DecidableEq

/-- `FontAlias::new()`. -/
def FontAlias.new : FontAlias :=
  { name := "", toName := "", weight := none }

/-- Transcription of the Rust struct `FontAxis`.  The `stylevalue` attribute
is an `f64` in the source; its parsed numeric value is never consulted by any
query, so the raw attribute text is stored instead. -/
structure FontAxis where
  tag : String
  stylevalue : String
deriving DecidableEq

/-- `FontAxis::new()`. -/
def FontAxis.new : FontAxis :=
  { tag := "", stylevalue := "" }

/-- Transcription of the Rust struct `FontEntry`. -/
structure FontEntry where
  path : Option String
  weight : Option Int
  italic : Bool
  fallback_for : Option String
  index : Int
  axis : List FontAxis
deriving DecidableEq

/-- `FontEntry::new()`. -/
def FontEntry.new : FontEntry :=
  { path := none, weight := none, italic := false, fallback_for := none,
    index := 0, axis := [] }

/-- `FontEntry::is_regular()`: not italic, and either no weight or weight
exactly 400. -/
def FontEntry.is_regular (e : FontEntry) : Bool :=
  if e.italic then false
  else
    match e.weight with
    | some w => w = 400
    | none => true

/-- Transcription of the Rust struct `FontFamily`. -/
structure FontFamily where
  name : Option String
  lang : Option String
  variant : Option String
  fonts : List FontEntry
deriving DecidableEq

/-- `FontFamily::new()`. -/
def FontFamily.new : FontFamily :=
  { name := none, lang := none, variant := none, fonts := [] }

/-- The abstract XML event stream consumed by `AndroidFontConfig::parse`.
`whitespace` is the reader's event for all-whitespace character data, which
the source ignores (it only matches `XmlEvent::Characters`); `other` stands
for every remaining event kind (document start and end, comments, errors),
all ignored by the source. -/
inductive XmlEvent where
  | startElement (name : String) (attributes : List (String × String))
  | endElement (name : String)
  | characters (s : String)
  | whitespace (s : String)
  | other
deriving DecidableEq

/-- `AndroidFontConfig::parse_alias`, folded over the attribute list; a
malformed `weight` attribute is a Rust `unwrap` panic, modelled as `none`. -/
def parseAliasAux : FontAlias → List (String × String) → Option FontAlias
  | fa, [] => some fa
  | fa, attr :: rest =>
    if attr.1 = "name" then parseAliasAux { fa with name := attr.2 } rest
    else if attr.1 = "to" then parseAliasAux { fa with toName := attr.2 } rest
    else if attr.1 = "weight" then
      match parseI32 attr.2 with
      | some w => parseAliasAux { fa with weight := some w } rest
      | none => none
    else parseAliasAux fa rest

/-- `AndroidFontConfig::parse_alias`. -/
def parseAlias (attributes : List (String × String)) : Option FontAlias :=
  parseAliasAux FontAlias.new attributes

/-- `AndroidFontConfig::parse_family`, folded over the attribute list. -/
def parseFamilyAux : FontFamily → List (String × String) → FontFamily
  | fam, [] => fam
  | fam, attr :: rest =>
    if attr.1 = "lang" then parseFamilyAux { fam with lang := some attr.2 } rest
    else if attr.1 = "name" then parseFamilyAux { fam with name := some attr.2 } rest
    else if attr.1 = "variant" then parseFamilyAux { fam with variant := some attr.2 } rest
    else parseFamilyAux fam rest

/-- `AndroidFontConfig::parse_family`. -/
def parseFamily (attributes : List (String × String)) : FontFamily :=
  parseFamilyAux FontFamily.new attributes

/-- `AndroidFontConfig::parse_font`, folded over the attribute list; a
malformed `weight` or `index` attribute is a Rust `unwrap` panic, modelled as
`none`. -/
def parseFontAux : FontEntry → List (String × String) → Option FontEntry
  | font, [] => some font
  | font, attr :: rest =>
    if attr.1 = "weight" then
      match parseI32 attr.2 with
      | some w => parseFontAux { font with weight := some w } rest
      | none => none
    else if attr.1 = "style" then
      if attr.2 = "normal" then parseFontAux { font with italic := false } rest
      else if attr.2 = "italic" then parseFontAux { font with italic := true } rest
      else parseFontAux font rest
    else if attr.1 = "fallbackFor" then parseFontAux { font with fallback_for := some attr.2 } rest
    else if attr.1 = "index" then
      match parseI32 attr.2 with
      | some i => parseFontAux { font with index := i } rest
      | none => none
    else parseFontAux font rest

/-- `AndroidFontConfig::parse_font`. -/
def parseFont (attributes : List (String × String)) : Option FontEntry :=
  parseFontAux FontEntry.new attributes

/-- `AndroidFontConfig::parse_axis`, folded over the attribute list.  The
`stylevalue` attribute is stored as raw text (see the module comment). -/
def parseAxisAux : FontAxis → List (String × String) → FontAxis
  | axis, [] => axis
  | axis, attr :: rest =>
    if attr.1 = "tag" then parseAxisAux { axis with tag := attr.2 } rest
    else if attr.1 = "stylevalue" then parseAxisAux { axis with stylevalue := attr.2 } rest
    else parseAxisAux axis rest

/-- `AndroidFontConfig::parse_axis`. -/
def parseAxis (attributes : List (String × String)) : FontAxis :=
  parseAxisAux FontAxis.new attributes

/-- The lang-splitting performed when a `family` element ends (lines 264-287
of the source): split the attribute on comma first, else on space, else keep
it whole, and emit one clone of the family per piece; a family without a
language tag is emitted unchanged. -/
def expandFamily (family : FontFamily) : List FontFamily :=
  match family.lang with
  | some l =>
    if containsChar l ',' then
      (splitChar l ',').map (fun t => { family with lang := some t })
    else if containsChar l ' ' then
      (splitChar l ' ').map (fun t => { family with lang := some t })
    else [family]
  | none => [family]

/-- The mutable state of the `parse` loop: the stack of currently open
element names (head = innermost), the two output lists, and the font and
family accumulators. -/
structure ParseState where
  currentElements : List String
  fontFamilies : List FontFamily
  fontAliases : List FontAlias
  font : FontEntry
  family : FontFamily
deriving DecidableEq

/-- The state at the top of `parse`, before any event is consumed. -/
def ParseState.initial : ParseState :=
  { currentElements := [], fontFamilies := [], fontAliases := [],
    font := FontEntry.new, family := FontFamily.new }

/-- One iteration of the `parse` event loop.  `none` models a Rust panic:
an attribute `unwrap` failure inside `parse_alias`/`parse_font`, or
`current_elements.last().unwrap()` on an empty stack (reachable on a
`Characters` event outside every element and on a `</font>` carrying a path
that closes the outermost open element). -/
def step (st : ParseState) (e : XmlEvent) : Option ParseState :=
  match e with
  | XmlEvent.startElement name attributes =>
    let st1 : ParseState := { st with currentElements := name :: st.currentElements }
    if name = "alias" then
      (parseAlias attributes).map
        (fun a => { st1 with fontAliases := st1.fontAliases ++ [a] })
    else if name = "family" then some { st1 with family := parseFamily attributes }
    else if name = "font" then (parseFont attributes).map (fun f => { st1 with font := f })
    else if name = "axis" then
      some { st1 with font := { st1.font with axis := st1.font.axis ++ [parseAxis attributes] } }
    else some st1
  | XmlEvent.endElement name =>
    let st1 : ParseState := { st with currentElements := st.currentElements.tail }
    if name = "font" then
      if st1.font.path.isSome then
        match st1.currentElements.head? with
        | some top =>
          if top = "family" then
            some { st1 with family := { st1.family with fonts := st1.family.fonts ++ [st1.font] } }
          else some st1
        | none => none
      else some st1
    else if name = "family" then
      some { st1 with fontFamilies := st1.fontFamilies ++ expandFamily st1.family }
    else some st1
  | XmlEvent.characters s =>
    match st.currentElements.head? with
    | some top =>
      if top = "font" then
        some { st with font := { st.font with path := some (systemFontsDir ++ rustTrim s) } }
      else some st
    | none => none
  | XmlEvent.whitespace _ => some st
  | XmlEvent.other => some st

/-- Run the `parse` event loop from a given state. -/
def runEvents : List XmlEvent → ParseState → Option ParseState
  | [], st => some st
  | e :: rest, st =>
    match step st e with
    | some st2 => runEvents rest st2
    | none => none

/-- `AndroidFontConfig::parse`: the `(families, aliases)` pair produced from
an event stream, or `none` when the loop panics. -/
def parseEvents (events : List XmlEvent) : Option (List FontFamily × List FontAlias) :=
  (runEvents events ParseState.initial).map (fun st => (st.fontFamilies, st.fontAliases))

/-- Transcription of the Rust struct `AndroidFontConfig`. -/
structure AndroidFontConfig where
  font_families : List FontFamily
  font_aliases : List FontAlias
deriving DecidableEq

/-- The alias scan inside `resolve_font_family_by_alias`: first alias whose
`name` matches wins, otherwise the input is returned unchanged. -/
def resolveAliasList : List FontAlias → String → String
  | [], name => name
  | a :: rest, name => if a.name = name then a.toName else resolveAliasList rest name

/-- `AndroidFontConfig::resolve_font_family_by_alias`. -/
def AndroidFontConfig.resolve_font_family_by_alias (cfg : AndroidFontConfig) (name : String) : String :=
  resolveAliasList cfg.font_aliases name

/-- The inner font loop of `font_path_by_family_and_lang`.  `some none`
means the family contained no matching font (scan continues with the next
family); `some (some r)` is an early `return Ok(r)`; `none` models the
`font.path.as_ref().unwrap()` panic on a matching font without a path. -/
def fflFontLoop (name : String) : List FontEntry → Option (Option (String × Int))
  | [] => some none
  | font :: rest =>
    match font.fallback_for with
    | some fallback =>
      if fallback = name then
        match font.path with
        | some p => some (some (p, font.index))
        | none => none
      else fflFontLoop name rest
    | none =>
      if name = "sans-serif" then
        match font.path with
        | some p => some (some (p, font.index))
        | none => none
      else fflFontLoop name rest

/-- The outer family loop of `font_path_by_family_and_lang`. -/
def fflFamilyLoop (name lang : String) : List FontFamily → Option (Except String (String × Int))
  | [] => some (Except.error ("not found"))
  | fam :: rest =>
    match fam.lang with
    | some l =>
      if l = lang then
        match fflFontLoop name fam.fonts with
        | none => none
        | some (some r) => some (Except.ok r)
        | some none => fflFamilyLoop name lang rest
      else fflFamilyLoop name lang rest
    | none => fflFamilyLoop name lang rest

/-- `AndroidFontConfig::font_path_by_family_and_lang`; `none` models the
reachable `unwrap` panic on a stored font without a path. -/
def AndroidFontConfig.font_path_by_family_and_lang (cfg : AndroidFontConfig)
    (name lang : String) : Option (Except String (String × Int)) :=
  fflFamilyLoop name lang cfg.font_families

/-- The inner font loop of `default_font_path_by_lang`: first font that is
regular and has a path.  The `unwrap` here is guarded by `path.is_some()`,
so no panic is possible. -/
def dfplFontLoop : List FontEntry → Option (String × Int)
  | [] => none
  | font :: rest =>
    if font.is_regular then
      match font.path with
      | some p => some (p, font.index)
      | none => dfplFontLoop rest
    else dfplFontLoop rest

/-- The outer family loop of `default_font_path_by_lang`.  A family matches
when its language tag equals `lang`, or when it has no tag and `lang` is
empty (`lang.is_empty()` in the source, i.e. `lang = ""`). -/
def dfplFamilyLoop (lang : String) : List FontFamily → Except String (String × Int)
  | [] => Except.error ("not found")
  | fam :: rest =>
    match fam.lang with
    | some l =>
      if l = lang then
        match dfplFontLoop fam.fonts with
        | some r => Except.ok r
        | none => dfplFamilyLoop lang rest
      else dfplFamilyLoop lang rest
    | none =>
      if lang = "" then
        match dfplFontLoop fam.fonts with
        | some r => Except.ok r
        | none => dfplFamilyLoop lang rest
      else dfplFamilyLoop lang rest

/-- `AndroidFontConfig::default_font_path_by_lang`. -/
def AndroidFontConfig.default_font_path_by_lang (cfg : AndroidFontConfig)
    (lang : String) : Except String (String × Int) :=
  dfplFamilyLoop lang cfg.font_families

/-- `AndroidFontConfig::all_font_paths`: flatten every family's fonts, keep
those with a path (`filter` on `path.is_some()` followed by the guarded
`unwrap`, fused into `filterMap`). -/
def AndroidFontConfig.all_font_paths (cfg : AndroidFontConfig) : List (String × Int) :=
  ((cfg.font_families.map (fun f => f.fonts)).flatten).filterMap
    (fun font => font.path.map (fun p => (p, font.index)))

/-- Contribution of a named family whose name matched inside
`select_family_by_name`: the fonts filtered by `path.is_some() &&
is_regular()`, each mapped through the guarded `unwrap`. -/
def selectNamedLoop : List FontEntry → List (String × Int)
  | [] => []
  | font :: rest =>
    match font.path with
    | some p =>
      if font.is_regular then (p, font.index) :: selectNamedLoop rest
      else selectNamedLoop rest
    | none => selectNamedLoop rest

/-- The anonymous-family filter of `select_family_by_name`:
`fallback_for == name`, or no `fallback_for` and `name == "sans-serif"`. -/
def anonMatch (name : String) (font : FontEntry) : Bool :=
  match font.fallback_for with
  | some fallback => fallback = name
  | none => name = "sans-serif"

/-- Contribution of an anonymous family inside `select_family_by_name`.
The `unwrap` on `font.path` here is NOT guarded by a `path.is_some()`
filter, so `none` models that panic. -/
def selectAnonLoop (name : String) : List FontEntry → Option (List (String × Int))
  | [] => some []
  | font :: rest =>
    if anonMatch name font then
      match font.path with
      | some p => (selectAnonLoop name rest).map (fun l => (p, font.index) :: l)
      | none => none
    else selectAnonLoop name rest

/-- The family loop of `select_family_by_name`, accumulating the collected
`(path, index)` pairs across every family. -/
def selectLoop (name : String) : List FontFamily → Option (List (String × Int))
  | [] => some []
  | fam :: rest =>
    match fam.name with
    | some n =>
      if name = n then
        (selectLoop name rest).map (fun l => selectNamedLoop fam.fonts ++ l)
      else selectLoop name rest
    | none =>
      match selectAnonLoop name fam.fonts with
      | some c => (selectLoop name rest).map (fun l => c ++ l)
      | none => none

/-- `AndroidFontConfig::select_family_by_name`; `none` models the reachable
`unwrap` panic in the anonymous branch. -/
def AndroidFontConfig.select_family_by_name (cfg : AndroidFontConfig)
    (family_name : String) : Option (Except String (List (String × Int))) :=
  let resolved := cfg.resolve_font_family_by_alias family_name
  (selectLoop resolved cfg.font_families).map
    (fun paths => if paths.length > 0 then Except.ok paths else Except.error ("not found"))

/-- Invariant satisfied by every loaded configuration: every stored font has
a populated path. -/
def allPathsSet (families : List FontFamily) : Bool :=
  families.all (fun fam => fam.fonts.all (fun font => font.path.isSome))

/-- Specification of alias resolution, from the spec's words: the `to`
target of the first alias whose name matches exactly, else the input. -/
def resolveAliasSpec (aliases : List FontAlias) (name : String) : String :=
  match aliases.find? (fun a => a.name = name) with
  | some a => a.toName
  | none => name

/-- The fallback-matching predicate shared by the spec's descriptions of
`font_path_by_family_and_lang` and of the anonymous branch of
`select_family_by_name`: the font's `fallbackFor` equals the name, or the
font has no `fallbackFor` and the name is `"sans-serif"`. -/
def fallbackMatchSpec (name : String) (font : FontEntry) : Bool :=
  font.fallback_for = some name ∨ (font.fallback_for = none ∧ name = "sans-serif")

/-- Specification of `font_path_by_family_and_lang`, from the claim's words:
scan, in manifest order, the fonts of the families whose language tag equals
`lang`, and return the `(path, index)` of the first font matching the
fallback rule; not-found error when none matches. -/
def fflSpec (cfg : AndroidFontConfig) (name lang : String) : Except String (String × Int) :=
  match ((cfg.font_families.filter (fun fam => fam.lang = some lang)).flatMap
      (fun fam => fam.fonts)).find? (fallbackMatchSpec name) with
  | some font => Except.ok (font.path.getD (""), font.index)
  | none => Except.error ("not found")

/-- The `(path, index)` pair of a font, as the spec describes it (the path
of a stored font is always populated, so the default never shows). -/
def pathIndexPair (font : FontEntry) : String × Int :=
  (font.path.getD (""), font.index)

/-- A regular font's `(path, index)` pair, or `none` when the font is not
regular or has no path. -/
def regularPathPair (font : FontEntry) : Option (String × Int) :=
  if font.is_regular then font.path.map (fun p => (p, font.index)) else none

/-- Amended specification of `default_font_path_by_lang` (see claim C2):
scan, in manifest order, the fonts of every family whose language tag equals
`lang` — including, when `lang` is empty, the families with no tag — and
return the first regular font with a resolved path; not-found error when
none exists. -/
def dfplSpec (cfg : AndroidFontConfig) (lang : String) : Except String (String × Int) :=
  match (((cfg.font_families.filter
      (fun fam => fam.lang = some lang ∨ (fam.lang = none ∧ lang = ""))).flatMap
        (fun fam => fam.fonts)).filterMap regularPathPair).head? with
  | some r => Except.ok r
  | none => Except.error ("not found")

/-- `default_font_path_by_lang` as claim C2 literally states it: only the
FIRST family with a matching language tag (or, for empty `lang`, the first
family with no tag) is scanned for a regular font. -/
def dfplClaimSpec (cfg : AndroidFontConfig) (lang : String) : Except String (String × Int) :=
  match cfg.font_families.find?
      (fun fam => if lang = "" then fam.lang = none else fam.lang = some lang) with
  | some fam =>
    match (fam.fonts.filterMap regularPathPair).head? with
    | some r => Except.ok r
    | none => Except.error ("not found")
  | none => Except.error ("not found")

/-- Specification of `select_family_by_name`'s aggregate list, from the
claim's words: per family in manifest order, a named family matching the
resolved name contributes every regular font's pair, an anonymous family
contributes every font matching the fallback rule. -/
def selectSpecList (families : List FontFamily) (resolved : String) : List (String × Int) :=
  families.flatMap (fun fam =>
    match fam.name with
    | some n =>
      if resolved = n then (fam.fonts.filter (fun font => font.is_regular)).map pathIndexPair
      else []
    | none => (fam.fonts.filter (fallbackMatchSpec resolved)).map pathIndexPair)

/-- Specification of `select_family_by_name`, from the claim's words:
resolve the name through the alias list, build the aggregate list, and
return the not-found error exactly when it is empty. -/
def selectSpec (cfg : AndroidFontConfig) (family_name : String) : Except String (List (String × Int)) :=
  let resolved := resolveAliasSpec cfg.font_aliases family_name
  let paths := selectSpecList cfg.font_families resolved
  if paths = [] then Except.error ("not found") else Except.ok paths

/-- Specification of the lang splitting, from the claim's words: split on
comma first, else on space, else a single tag. -/
def splitLangSpec (l : String) : List String :=
  if containsChar l ',' then splitChar l ','
  else if containsChar l ' ' then splitChar l ' '
  else [l]

/-- Specification of the end-of-family expansion, from the claim's words:
one clone per split tag, identical except for the language tag; a family
with no language tag is kept as-is. -/
def expandFamilySpec (family : FontFamily) : List FontFamily :=
  match family.lang with
  | some l => (splitLangSpec l).map (fun t => { family with lang := some t })
  | none => [family]

/-- A `<font>` element of a manifest: its attribute list, its optional text
content, and the attribute lists of its `<axis>` children. -/
structure MFont where
  attributes : List (String × String)
  text : Option String
  axes : List (List (String × String))
deriving DecidableEq

/-- A `<family>` element of a manifest: its attribute list and its `<font>`
children. -/
structure MFamily where
  attributes : List (String × String)
  fonts : List MFont
deriving DecidableEq

/-- A top-level item of a manifest: a `<family>`, an `<alias>`, or a stray
`<font>` appearing outside every `<family>`. -/
inductive MItem where
  | fam (f : MFamily)
  | aliasItem (attributes : List (String × String))
  | strayFont (f : MFont)
deriving DecidableEq

/-- The text events an XML reader produces for an element's character data:
a `Characters` event when the text has a non-whitespace character, a
`Whitespace` event when it is non-empty all-whitespace, nothing when it is
empty. -/
def textEvents : Option String → List XmlEvent
  | none => []
  | some s =>
    if rustTrim s = "" then (if s = "" then [] else [XmlEvent.whitespace s])
    else [XmlEvent.characters s]

/-- The events of one `<axis .../>` child. -/
def axisEvents (a : List (String × String)) : List XmlEvent :=
  [XmlEvent.startElement ("axis") a, XmlEvent.endElement ("axis")]

/-- The events of one `<font>` element. -/
def fontEvents (f : MFont) : List XmlEvent :=
  [XmlEvent.startElement ("font") f.attributes] ++ textEvents f.text
    ++ f.axes.flatMap axisEvents ++ [XmlEvent.endElement ("font")]

/-- The events of one `<family>` element. -/
def familyEvents (fam : MFamily) : List XmlEvent :=
  [XmlEvent.startElement ("family") fam.attributes] ++ fam.fonts.flatMap fontEvents
    ++ [XmlEvent.endElement ("family")]

/-- The events of one top-level manifest item. -/
def itemEvents : MItem → List XmlEvent
  | MItem.fam f => familyEvents f
  | MItem.aliasItem a => [XmlEvent.startElement ("alias") a, XmlEvent.endElement ("alias")]
  | MItem.strayFont f => fontEvents f

/-- The event stream of a whole manifest, wrapped in the `<familyset>` root
element. -/
def manifestEvents (items : List MItem) : List XmlEvent :=
  [XmlEvent.startElement ("familyset") []] ++ items.flatMap itemEvents
    ++ [XmlEvent.endElement ("familyset")]

/-- The font accumulator's path after the text events of a font element:
set by a `Characters` event, untouched otherwise. -/
def textPath (old : Option String) : Option String → Option String
  | none => old
  | some s => if rustTrim s = "" then old else some (systemFontsDir ++ rustTrim s)

/-- The font accumulator at the closing tag of a font element `f`, given
that its attributes parsed to `fe`. -/
def finishedFont (fe : FontEntry) (f : MFont) : FontEntry :=
  { fe with path := textPath fe.path f.text, axis := fe.axis ++ f.axes.map parseAxis }

/-- The font entries a list of `<font>` children adds to the enclosing
family, or `none` when an attribute parse panics. -/
def storedFonts : List MFont → Option (List FontEntry)
  | [] => some []
  | f :: rest =>
    match parseFont f.attributes with
    | none => none
    | some fe =>
      (storedFonts rest).map (fun fs =>
        (if (finishedFont fe f).path.isSome then [finishedFont fe f] else []) ++ fs)

/-- The families and aliases one top-level item appends to the output. -/
def itemContrib : MItem → Option (List FontFamily × List FontAlias)
  | MItem.fam f =>
    (storedFonts f.fonts).map (fun fs =>
      (expandFamily { parseFamily f.attributes with
        fonts := (parseFamily f.attributes).fonts ++ fs }, []))
  | MItem.aliasItem a => (parseAlias a).map (fun al => ([], [al]))
  | MItem.strayFont f => (parseFont f.attributes).map (fun _ => ([], []))

/-- The families and aliases a list of top-level items appends, or `none`
when some attribute parse panics. -/
def itemsContrib : List MItem → Option (List FontFamily × List FontAlias)
  | [] => some ([], [])
  | item :: rest =>
    match itemContrib item with
    | none => none
    | some c => (itemsContrib rest).map (fun r => (c.1 ++ r.1, c.2 ++ r.2))

/-- The value of the `lang` attribute in an attribute list (last one wins,
as in the source's fold over attributes). -/
def langTagsAux : Option String → List (String × String) → Option String
  | acc, [] => acc
  | acc, attr :: rest => langTagsAux (if attr.1 = "lang" then some attr.2 else acc) rest

/-- The `lang` attribute of an attribute list. -/
def langTags (attributes : List (String × String)) : Option String :=
  langTagsAux none attributes

/-- The face index recorded in an attribute list: the last parsable `index`
attribute, default 0. -/
def expectedIndexAux : Int → List (String × String) → Int
  | acc, [] => acc
  | acc, attr :: rest =>
    expectedIndexAux (if attr.1 = "index" then (parseI32 attr.2).getD acc else acc) rest

/-- The face index of a font's attribute list. -/
def expectedIndex (attributes : List (String × String)) : Int :=
  expectedIndexAux 0 attributes

/-- The resolved path of a manifest font: the system directory plus the
trimmed text, provided the text exists and is not all-whitespace. -/
def mfontPath (f : MFont) : Option String :=
  f.text.bind (fun s => if rustTrim s = "" then none else some (systemFontsDir ++ rustTrim s))

/-- Specification of the `(path, index)` pairs contributed by the fonts of
one family: exactly the fonts with non-empty, non-whitespace text, in
manifest order. -/
def expectedFontPairs (fonts : List MFont) : List (String × Int) :=
  fonts.filterMap (fun f => (mfontPath f).map (fun p => (p, expectedIndex f.attributes)))

/-- Specification of the pairs contributed by one `<family>` element: its
font pairs, once per split language tag. -/
def expectedFamilyPaths (fam : MFamily) : List (String × Int) :=
  match langTags fam.attributes with
  | some l => (splitLangSpec l).flatMap (fun _ => expectedFontPairs fam.fonts)
  | none => expectedFontPairs fam.fonts

/-- Specification of `all_font_paths` over a whole manifest: family items
contribute their pairs, aliases and stray fonts contribute nothing. -/
def expectedAllFontPaths (items : List MItem) : List (String × Int) :=
  items.flatMap (fun item =>
    match item with
    | MItem.fam f => expectedFamilyPaths f
    | _ => [])

deriving instance DecidableEq for Except

/-- A small concrete manifest event stream used by the witnesses: a named
family, an anonymous Japanese fallback family, and an alias. -/
def wEvents : List XmlEvent :=
  [XmlEvent.startElement ("familyset") [],
   XmlEvent.startElement ("family") [(("name" : String), "sans-serif")],
   XmlEvent.startElement ("font") [],
   XmlEvent.characters ("Roboto-Regular.ttf"),
   XmlEvent.endElement ("font"),
   XmlEvent.endElement ("family"),
   XmlEvent.startElement ("family") [(("lang" : String), "ja")],
   XmlEvent.startElement ("font") [],
   XmlEvent.characters ("NotoSansCJK-Regular.ttc"),
   XmlEvent.endElement ("font"),
   XmlEvent.endElement ("family"),
   XmlEvent.startElement ("alias") [(("name" : String), "arial"), (("to" : String), "sans-serif")],
   XmlEvent.endElement ("alias"),
   XmlEvent.endElement ("familyset")]

/-- The families loaded from `wEvents`. -/
def wFamilies : List FontFamily :=
  [{ name := some ("sans-serif"), lang := none, variant := none,
     fonts := [{ path := some ("/system/fonts/Roboto-Regular.ttf"), weight := none,
                 italic := false, fallback_for := none, index := 0, axis := [] }] },
   { name := none, lang := some ("ja"), variant := none,
     fonts := [{ path := some ("/system/fonts/NotoSansCJK-Regular.ttc"), weight := none,
                 italic := false, fallback_for := none, index := 0, axis := [] }] }]

/-- The aliases loaded from `wEvents`. -/
def wAliases : List FontAlias :=
  [{ name := "arial", toName := "sans-serif", weight := none }]

/-- Event stream for the counterexample to claim C2: two families with no
language tag, the first holding only an italic font, the second a regular
font. -/
def c2Events : List XmlEvent :=
  [XmlEvent.startElement ("familyset") [],
   XmlEvent.startElement ("family") [],
   XmlEvent.startElement ("font") [(("style" : String), "italic")],
   XmlEvent.characters ("Roboto-Italic.ttf"),
   XmlEvent.endElement ("font"),
   XmlEvent.endElement ("family"),
   XmlEvent.startElement ("family") [],
   XmlEvent.startElement ("font") [],
   XmlEvent.characters ("Roboto-Regular.ttf"),
   XmlEvent.endElement ("font"),
   XmlEvent.endElement ("family"),
   XmlEvent.endElement ("familyset")]

/-- The families loaded from `c2Events`. -/
def c2Families : List FontFamily :=
  [{ name := none, lang := none, variant := none,
     fonts := [{ path := some ("/system/fonts/Roboto-Italic.ttf"), weight := none,
                 italic := true, fallback_for := none, index := 0, axis := [] }] },
   { name := none, lang := none, variant := none,
     fonts := [{ path := some ("/system/fonts/Roboto-Regular.ttf"), weight := none,
                 italic := false, fallback_for := none, index := 0, axis := [] }] }]

/-- Event stream for the counterexample to claim C5: one family whose `lang`
attribute mixes a comma and a space. -/
def c5Events : List XmlEvent :=
  [XmlEvent.startElement ("familyset") [],
   XmlEvent.startElement ("family") [(("lang" : String), "a,b c")],
   XmlEvent.endElement ("family"),
   XmlEvent.endElement ("familyset")]

/-- The families loaded from `c5Events`: the comma split leaves the
space-separated piece `"b c"` intact. -/
def c5Families : List FontFamily :=
  [{ name := none, lang := some ("a"), variant := none, fonts := [] },
   { name := none, lang := some ("b c"), variant := none, fonts := [] }]

/-- Event stream for the counterexample to claim C8: a path-bearing `font`
element closing as the outermost open element. -/
def c8Events : List XmlEvent :=
  [XmlEvent.startElement ("font") [],
   XmlEvent.characters ("x.ttf"),
   XmlEvent.endElement ("font")]

/-- A concrete parse state used by the witness of the amended claim C8: a
`font` element with a path, open inside the `familyset` root. -/
def c8State : ParseState :=
  { currentElements := ["font", "familyset"], fontFamilies := [], fontAliases := [],
    font := { FontEntry.new with path := some ("/system/fonts/x.ttf") },
    family := FontFamily.new }

/-- A concrete manifest used by the witness of claim C7: a named family with
a real font, a whitespace-only font and a textless font, a multi-tag
anonymous family, a stray font, and an alias. -/
def wItems : List MItem :=
  [MItem.fam
     { attributes := [(("name" : String), "sans-serif")],
       fonts := [{ attributes := [], text := some ("Roboto-Regular.ttf"), axes := [] },
                 { attributes := [], text := some ("   "), axes := [] },
                 { attributes := [], text := none, axes := [] }] },
   MItem.fam
     { attributes := [(("lang" : String), "ja ko")],
       fonts := [{ attributes := [], text := some ("NotoSansCJK-Regular.ttc"), axes := [] }] },
   MItem.strayFont { attributes := [], text := some ("Stray.ttf"), axes := [] },
   MItem.aliasItem [(("name" : String), "arial"), (("to" : String), "sans-serif")]]

/-- The families loaded from `manifestEvents wItems`: the whitespace-only
and textless fonts are dropped, the `"ja ko"` family is split into two
clones, the stray font is dropped. -/
def wmFamilies : List FontFamily :=
  [{ name := some ("sans-serif"), lang := none, variant := none,
     fonts := [{ path := some ("/system/fonts/Roboto-Regular.ttf"), weight := none,
                 italic := false, fallback_for := none, index := 0, axis := [] }] },
   { name := none, lang := some ("ja"), variant := none,
     fonts := [{ path := some ("/system/fonts/NotoSansCJK-Regular.ttc"), weight := none,
                 italic := false, fallback_for := none, index := 0, axis := [] }] },
   { name := none, lang := some ("ko"), variant := none,
     fonts := [{ path := some ("/system/fonts/NotoSansCJK-Regular.ttc"), weight := none,
                 italic := false, fallback_for := none, index := 0, axis := [] }] }]

/-- The aliases loaded from `manifestEvents wItems`. -/
def wmAliases : List FontAlias :=
  [{ name := "arial", toName := "sans-serif", weight := none }]

/-! ## Alias resolution (claim C9) -/

theorem resolveAliasList_eq_spec (aliases : List FontAlias) (name : String) :
    resolveAliasList aliases name = resolveAliasSpec aliases name := by
  induction aliases with
  | nil => rfl
  | cons a rest ih =>
    by_cases h : a.name = name
    · simp [resolveAliasList, resolveAliasSpec, List.find?_cons, h]
    · simpa [resolveAliasList, resolveAliasSpec, List.find?_cons, h] using ih

/-- Claim C9: `resolve_font_family_by_alias` scans the alias list in manifest
order and returns the `to` target of the first alias whose name equals the
input exactly; when no alias matches it returns the input unchanged.  The
operation is a total function (it never fails). -/
theorem c9_resolve_alias_first_match (cfg : AndroidFontConfig) (x : String) :
    cfg.resolve_font_family_by_alias x = resolveAliasSpec cfg.font_aliases x :=
  resolveAliasList_eq_spec cfg.font_aliases x

/-! ## The is-regular rule (claim C4) -/

/-- Claim C4: `is_regular` holds iff the italic flag is false and the weight
is absent or exactly 400; consequently the same entry with weight 700, or
with the italic flag set, is never regular, so no such font is selected by a
scan that requires a regular font. -/
theorem c4_is_regular_iff (e : FontEntry) :
    (e.is_regular = true ↔ (e.italic = false ∧ (e.weight = none ∨ e.weight = some 400)))
      ∧ FontEntry.is_regular { e with weight := some 700 } = false
      ∧ FontEntry.is_regular { e with italic := true } = false := by
  rcases e with ⟨p, w, i, fb, idx, ax⟩
  cases i <;> cases w <;> simp [FontEntry.is_regular]

/-! ## default_font_path_by_lang (claim C2) -/

theorem dfplFontLoop_eq (fonts : List FontEntry) :
    dfplFontLoop fonts = (fonts.filterMap regularPathPair).head? := by
  induction fonts with
  | nil => rfl
  | cons font rest ih =>
    by_cases hr : font.is_regular
    · cases hp : font.path with
      | some p => simp [dfplFontLoop, regularPathPair, hr, hp]
      | none => simpa [dfplFontLoop, regularPathPair, hr, hp] using ih
    · simpa [dfplFontLoop, regularPathPair, hr] using ih

theorem dfplFamilyLoop_eq (lang : String) (fams : List FontFamily) :
    dfplFamilyLoop lang fams =
      (match (((fams.filter
          (fun fam => fam.lang = some lang ∨ (fam.lang = none ∧ lang = ""))).flatMap
            (fun fam => fam.fonts)).filterMap regularPathPair).head? with
        | some r => Except.ok r
        | none => Except.error ("not found")) := by
  induction fams with
  | nil => rfl
  | cons fam rest ih =>
    cases hl : fam.lang with
    | some l =>
      by_cases he : l = lang
      · subst he
        rw [dfplFamilyLoop, hl]
        simp only [if_pos rfl]
        rw [dfplFontLoop_eq]
        cases hh : (fam.fonts.filterMap regularPathPair).head? with
        | some r =>
          simp [List.filter_cons, hl, List.filterMap_append, hh]
        | none =>
          have hnil : fam.fonts.filterMap regularPathPair = [] := by
            cases hfm : fam.fonts.filterMap regularPathPair with
            | nil => rfl
            | cons a as => rw [hfm] at hh; simp at hh
          simp [List.filter_cons, hl, List.filterMap_append, hnil, ih]
      · have hcond : ¬(fam.lang = some lang ∨ (fam.lang = none ∧ lang = "")) := by
          simp [hl, he]
        rw [dfplFamilyLoop, hl]
        simp only [if_neg he]
        simp [List.filter_cons, hcond, ih]
    | none =>
      by_cases he : lang = ""
      · subst he
        rw [dfplFamilyLoop, hl]
        simp only [if_pos rfl]
        rw [dfplFontLoop_eq]
        cases hh : (fam.fonts.filterMap regularPathPair).head? with
        | some r =>
          simp [List.filter_cons, hl, List.filterMap_append, hh]
        | none =>
          have hnil : fam.fonts.filterMap regularPathPair = [] := by
            cases hfm : fam.fonts.filterMap regularPathPair with
            | nil => rfl
            | cons a as => rw [hfm] at hh; simp at hh
          simpa [List.filter_cons, hl, List.filterMap_append, hnil] using ih
      · have hcond : ¬(FontFamily.lang fam = some lang ∨ (FontFamily.lang fam = none ∧ lang = "")) := by
          simp [hl, he]
        rw [dfplFamilyLoop, hl]
        simp only [if_neg he]
        simpa [List.filter_cons, hcond] using ih

/-- Claim C2, amended: `default_font_path_by_lang` scans, in manifest order,
ALL families whose language matches (tag equal to `lang`, or no tag when
`lang` is empty) and returns the first regular font with a resolved path
found in any of them; it returns the not-found error exactly when no such
font exists in any matching family.  The claim as stated — only the first
matching family is scanned — is refuted by
`c2_counterexample_scan_continues`. -/
theorem c2_default_font_path_scans_all_matching_families (cfg : AndroidFontConfig) (lang : String) :
    cfg.default_font_path_by_lang lang = dfplSpec cfg lang := by
  unfold AndroidFontConfig.default_font_path_by_lang dfplSpec
  exact dfplFamilyLoop_eq lang cfg.font_families

/-- Counterexample to claim C2 as stated: in this loaded configuration the
first family with no language tag holds only an italic font, yet the query
continues into the second tagless family and succeeds, where the claim
demands the not-found error. -/
theorem c2_counterexample_scan_continues :
    parseEvents c2Events = some (c2Families, [])
      ∧ AndroidFontConfig.default_font_path_by_lang
          { font_families := c2Families, font_aliases := [] } ("")
          = Except.ok ("/system/fonts/Roboto-Regular.ttf", 0)
      ∧ dfplClaimSpec { font_families := c2Families, font_aliases := [] } ("")
          = Except.error ("not found") := by
  refine ⟨by decide, by decide, by decide⟩

/-! ## font_path_by_family_and_lang (claim C3) -/

theorem fflFontLoop_eq (name : String) (fonts : List FontEntry)
    (h : fonts.all (fun f => f.path.isSome) = true) :
    fflFontLoop name fonts = some ((fonts.find? (fallbackMatchSpec name)).map pathIndexPair) := by
  induction fonts with
  | nil => rfl
  | cons font rest ih =>
    rw [List.all_cons, Bool.and_eq_true] at h
    cases hp : font.path with
    | none => rw [hp] at h; simp at h
    | some p =>
      cases hf : font.fallback_for with
      | some fallback =>
        by_cases he : fallback = name
        · subst he
          simp [fflFontLoop, hf, hp, List.find?_cons, fallbackMatchSpec, pathIndexPair]
        · simpa [fflFontLoop, hf, hp, List.find?_cons, fallbackMatchSpec, he] using ih h.2
      | none =>
        by_cases he : name = "sans-serif"
        · subst he
          simp [fflFontLoop, hf, hp, List.find?_cons, fallbackMatchSpec, pathIndexPair]
        · simpa [fflFontLoop, hf, hp, List.find?_cons, fallbackMatchSpec, he] using ih h.2

theorem fflFamilyLoop_eq (name lang : String) (fams : List FontFamily)
    (h : allPathsSet fams = true) :
    fflFamilyLoop name lang fams =
      some (match ((fams.filter (fun fam => fam.lang = some lang)).flatMap
          (fun fam => fam.fonts)).find? (fallbackMatchSpec name) with
        | some font => Except.ok (font.path.getD (""), font.index)
        | none => Except.error ("not found")) := by
  induction fams with
  | nil => rfl
  | cons fam rest ih =>
    rw [allPathsSet, List.all_cons, Bool.and_eq_true] at h
    have hrest := ih h.2
    cases hl : fam.lang with
    | some l =>
      by_cases he : l = lang
      · subst he
        rw [fflFamilyLoop, hl]
        simp only [if_pos rfl]
        rw [fflFontLoop_eq name fam.fonts h.1]
        cases hh : fam.fonts.find? (fallbackMatchSpec name) with
        | some font =>
          simp [List.filter_cons, hl, List.find?_append, hh, pathIndexPair]
        | none =>
          simpa [List.filter_cons, hl, List.find?_append, hh] using hrest
      · have hcond : ¬(FontFamily.lang fam = some lang) := by simp [hl, he]
        rw [fflFamilyLoop, hl]
        simp only [if_neg he]
        simpa [List.filter_cons, hcond] using hrest
    | none =>
      have hcond : ¬(FontFamily.lang fam = some lang) := by simp [hl]
      rw [fflFamilyLoop, hl]
      simpa [List.filter_cons, hcond] using hrest

/-! ## The loader's path invariant (claims C6, C10, and the hypotheses of
C1 and C3) -/

theorem parseFamilyAux_fonts (attrs : List (String × String)) :
    ∀ fam, (parseFamilyAux fam attrs).fonts = fam.fonts := by
  induction attrs with
  | nil => intro fam; rfl
  | cons attr rest ih =>
    intro fam
    rw [parseFamilyAux]
    split
    · simp [ih]
    · split
      · simp [ih]
      · split
        · simp [ih]
        · simp [ih]

theorem expandFamily_fonts (fam fm : FontFamily) (h : fm ∈ expandFamily fam) :
    fm.fonts = fam.fonts := by
  unfold expandFamily at h
  split at h
  · split at h
    · obtain ⟨t, _, ht⟩ := List.mem_map.mp h
      rw [← ht]
    · split at h
      · obtain ⟨t, _, ht⟩ := List.mem_map.mp h
        rw [← ht]
      · simp at h; rw [h]
  · simp at h; rw [h]

theorem step_inv (st : ParseState) (e : XmlEvent) (st2 : ParseState)
    (hs : step st e = some st2)
    (h1 : allPathsSet st.fontFamilies = true)
    (h2 : st.family.fonts.all (fun f => f.path.isSome) = true) :
    allPathsSet st2.fontFamilies = true
      ∧ st2.family.fonts.all (fun f => f.path.isSome) = true := by
  cases e with
  | startElement name attributes =>
    simp only [step] at hs
    split at hs
    · cases hp : parseAlias attributes with
      | none => rw [hp] at hs; simp at hs
      | some a =>
        rw [hp] at hs
        simp only [Option.map_some', Option.some.injEq] at hs
        rw [← hs]
        exact ⟨h1, h2⟩
    · split at hs
      · simp only [Option.some.injEq] at hs
        rw [← hs]
        refine ⟨h1, ?_⟩
        show (parseFamily attributes).fonts.all (fun f => f.path.isSome) = true
        rw [parseFamily, parseFamilyAux_fonts]
        rfl
      · split at hs
        · cases hp : parseFont attributes with
          | none => rw [hp] at hs; simp at hs
          | some f =>
            rw [hp] at hs
            simp only [Option.map_some', Option.some.injEq] at hs
            rw [← hs]
            exact ⟨h1, h2⟩
        · split at hs
          · simp only [Option.some.injEq] at hs
            rw [← hs]
            exact ⟨h1, h2⟩
          · simp only [Option.some.injEq] at hs
            rw [← hs]
            exact ⟨h1, h2⟩
  | endElement name =>
    simp only [step] at hs
    split at hs
    · split at hs
      next hpath =>
        split at hs
        next top heq =>
          split at hs
          · simp only [Option.some.injEq] at hs
            rw [← hs]
            refine ⟨h1, ?_⟩
            show (st.family.fonts ++ [st.font]).all (fun f => f.path.isSome) = true
            rw [List.all_append, h2]
            simpa using hpath
          · simp only [Option.some.injEq] at hs
            rw [← hs]
            exact ⟨h1, h2⟩
        next heq => simp at hs
      next hpath =>
        simp only [Option.some.injEq] at hs
        rw [← hs]
        exact ⟨h1, h2⟩
    · split at hs
      · simp only [Option.some.injEq] at hs
        rw [← hs]
        refine ⟨?_, h2⟩
        show allPathsSet (st.fontFamilies ++ expandFamily st.family) = true
        rw [allPathsSet, List.all_append]
        have h1b : st.fontFamilies.all (fun fam => fam.fonts.all (fun font => font.path.isSome)) = true := h1
        rw [h1b]
        simp only [Bool.true_and]
        rw [List.all_eq_true]
        intro fm hm
        show fm.fonts.all (fun font => font.path.isSome) = true
        rw [expandFamily_fonts st.family fm hm]
        exact h2
      · simp only [Option.some.injEq] at hs
        rw [← hs]
        exact ⟨h1, h2⟩
  | characters s =>
    simp only [step] at hs
    split at hs
    next top heq =>
      split at hs
      · simp only [Option.some.injEq] at hs
        rw [← hs]
        exact ⟨h1, h2⟩
      · simp only [Option.some.injEq] at hs
        rw [← hs]
        exact ⟨h1, h2⟩
    next heq => simp at hs
  | whitespace s =>
    simp only [step, Option.some.injEq] at hs
    rw [← hs]
    exact ⟨h1, h2⟩
  | other =>
    simp only [step, Option.some.injEq] at hs
    rw [← hs]
    exact ⟨h1, h2⟩

theorem runEvents_inv (evs : List XmlEvent) :
    ∀ st st2, runEvents evs st = some st2 →
      allPathsSet st.fontFamilies = true →
      st.family.fonts.all (fun f => f.path.isSome) = true →
      allPathsSet st2.fontFamilies = true
        ∧ st2.family.fonts.all (fun f => f.path.isSome) = true := by
  induction evs with
  | nil =>
    intro st st2 h h1 h2
    rw [runEvents] at h
    simp at h
    rw [← h]
    exact ⟨h1, h2⟩
  | cons e rest ih =>
    intro st st2 h h1 h2
    rw [runEvents] at h
    cases hstep : step st e with
    | none => rw [hstep] at h; simp at h
    | some st1 =>
      rw [hstep] at h
      obtain ⟨g1, g2⟩ := step_inv st e st1 hstep h1 h2
      exact ih st1 st2 h g1 g2

theorem parseEvents_pathsSet (evs : List XmlEvent) (fams : List FontFamily)
    (als : List FontAlias) (h : parseEvents evs = some (fams, als)) :
    allPathsSet fams = true := by
  rw [parseEvents] at h
  cases hr : runEvents evs ParseState.initial with
  | none => rw [hr] at h; simp at h
  | some st =>
    rw [hr] at h
    simp at h
    obtain ⟨g1, _⟩ := runEvents_inv evs ParseState.initial st hr rfl rfl
    rw [← h.1]
    exact g1

/-- Claim C6: every `FontEntry` stored in any `FontFamily` produced by the
loader has a populated (`some`) path — a font whose path was never set by a
text-content event before its closing tag is discarded, never stored with a
placeholder or absent path. -/
theorem c6_stored_fonts_have_paths (evs : List XmlEvent) (fams : List FontFamily)
    (als : List FontAlias) (h : parseEvents evs = some (fams, als)) :
    allPathsSet fams = true :=
  parseEvents_pathsSet evs fams als h

theorem c6_stored_fonts_have_paths_witness :
    parseEvents wEvents = some (wFamilies, wAliases) ∧ allPathsSet wFamilies = true :=
  ⟨by decide, c6_stored_fonts_have_paths wEvents wFamilies wAliases (by decide)⟩

/-- Claim C3: on every loaded configuration,
`font_path_by_family_and_lang name lang` scans in manifest order the families
whose language tag equals `lang` and returns the `(path, index)` of the first
font whose `fallbackFor` equals `name` or, for a font without `fallbackFor`,
the first font when `name` is `"sans-serif"`; it returns the not-found error
when no font matches.  (`some` on the left says the scan performs no `unwrap`
panic on such a configuration.) -/
theorem c3_font_path_by_family_and_lang_spec (evs : List XmlEvent)
    (fams : List FontFamily) (als : List FontAlias) (name lang : String)
    (h : parseEvents evs = some (fams, als)) :
    AndroidFontConfig.font_path_by_family_and_lang
        { font_families := fams, font_aliases := als } name lang
      = some (fflSpec { font_families := fams, font_aliases := als } name lang) := by
  have hp := parseEvents_pathsSet evs fams als h
  unfold AndroidFontConfig.font_path_by_family_and_lang fflSpec
  exact fflFamilyLoop_eq name lang fams hp

theorem c3_font_path_by_family_and_lang_spec_witness :
    parseEvents wEvents = some (wFamilies, wAliases)
      ∧ AndroidFontConfig.font_path_by_family_and_lang
          { font_families := wFamilies, font_aliases := wAliases } ("sans-serif") ("ja")
        = some (fflSpec { font_families := wFamilies, font_aliases := wAliases }
            ("sans-serif") ("ja")) :=
  ⟨by decide,
   c3_font_path_by_family_and_lang_spec wEvents wFamilies wAliases
     ("sans-serif") ("ja") (by decide)⟩

/-! ## select_family_by_name (claims C1 and C10) -/

theorem selectNamedLoop_eq (fonts : List FontEntry)
    (h : fonts.all (fun f => f.path.isSome) = true) :
    selectNamedLoop fonts = (fonts.filter (fun font => font.is_regular)).map pathIndexPair := by
  induction fonts with
  | nil => rfl
  | cons font rest ih =>
    rw [List.all_cons, Bool.and_eq_true] at h
    cases hp : font.path with
    | none => rw [hp] at h; simp at h
    | some p =>
      by_cases hr : font.is_regular
      · simp [selectNamedLoop, hp, hr, List.filter_cons, pathIndexPair, ih h.2]
      · simp [selectNamedLoop, hp, hr, List.filter_cons, ih h.2]

theorem anonMatch_eq (name : String) (font : FontEntry) :
    anonMatch name font = fallbackMatchSpec name font := by
  cases hf : font.fallback_for <;> simp [anonMatch, fallbackMatchSpec, hf]

theorem selectAnonLoop_eq (name : String) (fonts : List FontEntry)
    (h : fonts.all (fun f => f.path.isSome) = true) :
    selectAnonLoop name fonts
      = some ((fonts.filter (fallbackMatchSpec name)).map pathIndexPair) := by
  induction fonts with
  | nil => rfl
  | cons font rest ih =>
    rw [List.all_cons, Bool.and_eq_true] at h
    by_cases hm : anonMatch name font = true
    · cases hp : font.path with
      | none => rw [hp] at h; simp at h
      | some p =>
        rw [selectAnonLoop, if_pos hm, hp, ih h.2]
        rw [anonMatch_eq] at hm
        simp [List.filter_cons, hm, pathIndexPair, hp]
    · rw [selectAnonLoop, if_neg hm, ih h.2]
      rw [anonMatch_eq] at hm
      simp [List.filter_cons, hm]

theorem selectLoop_eq (resolved : String) (fams : List FontFamily)
    (h : allPathsSet fams = true) :
    selectLoop resolved fams = some (selectSpecList fams resolved) := by
  induction fams with
  | nil => rfl
  | cons fam rest ih =>
    rw [allPathsSet, List.all_cons, Bool.and_eq_true] at h
    have hrest := ih h.2
    cases hn : fam.name with
    | some n =>
      by_cases he : resolved = n
      · subst he
        rw [selectLoop]
        simp only [hn, if_pos rfl, hrest, Option.map_some']
        simp [selectSpecList, List.flatMap_cons, hn, selectNamedLoop_eq fam.fonts h.1]
      · rw [selectLoop]
        simp only [hn, if_neg he, hrest]
        simp [selectSpecList, List.flatMap_cons, hn, he]
    | none =>
      rw [selectLoop]
      simp only [hn, selectAnonLoop_eq resolved fam.fonts h.1, hrest, Option.map_some']
      simp [selectSpecList, List.flatMap_cons, hn]

/-- Claim C1: on every loaded configuration, `select_family_by_name` first
resolves the input through the alias list; scanning every family in manifest
order, it collects from each matching named family the `(path, index)` pair
of every regular font and from each anonymous family the pair of every font
matching the fallback rule (fallbackFor equal to the resolved name, or no
fallbackFor when the resolved name is `"sans-serif"`), concatenated in
manifest order; it returns the not-found error exactly when this aggregate
is empty — in particular an unknown, unaliased name yields the error and
never an empty success.  (`some` on the left says no `unwrap` panic occurs
on such a configuration.) -/
theorem c1_select_family_by_name_spec (evs : List XmlEvent)
    (fams : List FontFamily) (als : List FontAlias) (name : String)
    (h : parseEvents evs = some (fams, als)) :
    AndroidFontConfig.select_family_by_name
        { font_families := fams, font_aliases := als } name
      = some (selectSpec { font_families := fams, font_aliases := als } name) := by
  have hp := parseEvents_pathsSet evs fams als h
  have hres : AndroidFontConfig.resolve_font_family_by_alias
      { font_families := fams, font_aliases := als } name = resolveAliasSpec als name :=
    resolveAliasList_eq_spec als name
  simp only [AndroidFontConfig.select_family_by_name, selectSpec, hres]
  rw [selectLoop_eq (resolveAliasSpec als name) fams hp]
  cases hsl : selectSpecList fams (resolveAliasSpec als name) with
  | nil => simp
  | cons a as => simp

theorem c1_select_family_by_name_spec_witness :
    parseEvents wEvents = some (wFamilies, wAliases)
      ∧ AndroidFontConfig.select_family_by_name
          { font_families := wFamilies, font_aliases := wAliases } ("arial")
        = some (selectSpec { font_families := wFamilies, font_aliases := wAliases } ("arial")) :=
  ⟨by decide, c1_select_family_by_name_spec wEvents wFamilies wAliases ("arial") (by decide)⟩

/-- Claim C10: on every configuration produced by the loader, the unguarded
`unwrap`s of the matched font's path inside `font_path_by_family_and_lang`
and inside the anonymous branch of `select_family_by_name` never panic
(modelled: the embedded queries never return `none`), because every stored
entry has a populated path. -/
theorem c10_unwraps_never_panic (evs : List XmlEvent) (fams : List FontFamily)
    (als : List FontAlias) (name lang : String)
    (h : parseEvents evs = some (fams, als)) :
    (AndroidFontConfig.font_path_by_family_and_lang
        { font_families := fams, font_aliases := als } name lang).isSome = true
      ∧ (AndroidFontConfig.select_family_by_name
          { font_families := fams, font_aliases := als } name).isSome = true := by
  have hp := parseEvents_pathsSet evs fams als h
  constructor
  · unfold AndroidFontConfig.font_path_by_family_and_lang
    rw [fflFamilyLoop_eq name lang fams hp]
    rfl
  · simp only [AndroidFontConfig.select_family_by_name]
    rw [selectLoop_eq (AndroidFontConfig.resolve_font_family_by_alias
      { font_families := fams, font_aliases := als } name) fams hp]
    rfl

theorem c10_unwraps_never_panic_witness :
    parseEvents wEvents = some (wFamilies, wAliases)
      ∧ (AndroidFontConfig.font_path_by_family_and_lang
          { font_families := wFamilies, font_aliases := wAliases } ("serif") ("ja")).isSome = true
      ∧ (AndroidFontConfig.select_family_by_name
          { font_families := wFamilies, font_aliases := wAliases } ("serif")).isSome = true := by
  refine ⟨by decide, ?_, ?_⟩
  · exact (c10_unwraps_never_panic wEvents wFamilies wAliases ("serif") ("ja") (by decide)).1
  · exact (c10_unwraps_never_panic wEvents wFamilies wAliases ("serif") ("ja") (by decide)).2

/-! ## Lang splitting at end of family (claim C5) -/

theorem splitCharList_chars (c : Char) :
    ∀ (l : List Char) (g : List Char), g ∈ splitCharList c l → ∀ x ∈ g, x ∈ l ∧ ¬(x = c) := by
  intro l
  induction l with
  | nil =>
    intro g hg x hx
    simp [splitCharList] at hg
    subst hg
    simp at hx
  | cons y ys ih =>
    intro g hg x hx
    rw [splitCharList] at hg
    by_cases hy : y = c
    · rw [if_pos hy] at hg
      rcases List.mem_cons.mp hg with h1 | h2
      · subst h1; simp at hx
      · obtain ⟨hxl, hxc⟩ := ih g h2 x hx
        exact ⟨List.mem_cons_of_mem y hxl, hxc⟩
    · rw [if_neg hy] at hg
      cases hsp : splitCharList c ys with
      | nil =>
        rw [hsp] at hg
        simp at hg
        subst hg
        have h1 : x = y := List.mem_singleton.mp hx
        subst h1
        exact ⟨List.mem_cons_self x ys, hy⟩
      | cons g0 gs =>
        rw [hsp] at hg
        rcases List.mem_cons.mp hg with h1 | h2
        · subst h1
          rcases List.mem_cons.mp hx with h1 | h2
          · subst h1
            exact ⟨List.mem_cons_self x ys, hy⟩
          · have hg0 : g0 ∈ splitCharList c ys := by
              rw [hsp]; exact List.mem_cons_self g0 gs
            obtain ⟨hxl, hxc⟩ := ih g0 hg0 x h2
            exact ⟨List.mem_cons_of_mem y hxl, hxc⟩
        · have hgs : g ∈ splitCharList c ys := by
            rw [hsp]; exact List.mem_cons_of_mem g0 h2
          obtain ⟨hxl, hxc⟩ := ih g hgs x hx
          exact ⟨List.mem_cons_of_mem y hxl, hxc⟩

theorem splitChar_chars (l : String) (c : Char) (t : String) (ht : t ∈ splitChar l c) :
    ∀ x ∈ t.data, x ∈ l.data ∧ ¬(x = c) := by
  rw [splitChar] at ht
  obtain ⟨g, hg, hgt⟩ := List.mem_map.mp ht
  intro x hx
  rw [← hgt] at hx
  exact splitCharList_chars c l.data g hg x hx

theorem splitLangSpec_no_comma (l t : String) (ht : t ∈ splitLangSpec l) :
    containsChar t ',' = false := by
  simp only [containsChar, List.any_eq_false, decide_eq_true_eq]
  intro x hx
  rw [splitLangSpec] at ht
  by_cases hc : containsChar l ','
  · rw [if_pos hc] at ht
    exact (splitChar_chars l ',' t ht x hx).2
  · have hcf : containsChar l ',' = false := by
      revert hc
      cases containsChar l ',' <;> simp
    have hcl : ∀ y ∈ l.data, ¬(y = ',') := by
      simpa only [containsChar, List.any_eq_false, decide_eq_true_eq] using hcf
    rw [if_neg hc] at ht
    by_cases hsp : containsChar l ' '
    · rw [if_pos hsp] at ht
      exact hcl x (splitChar_chars l ' ' t ht x hx).1
    · rw [if_neg hsp] at ht
      simp at ht
      subst ht
      exact hcl x hx

theorem expandFamily_eq_spec (fam : FontFamily) :
    expandFamily fam = expandFamilySpec fam := by
  cases fam with
  | mk nm lg vr fs =>
    cases lg with
    | none => rfl
    | some l =>
      by_cases hc : containsChar l ','
      · simp [expandFamily, expandFamilySpec, splitLangSpec, hc]
      · by_cases hsp : containsChar l ' '
        · simp [expandFamily, expandFamilySpec, splitLangSpec, hc, hsp]
        · simp [expandFamily, expandFamilySpec, splitLangSpec, hc, hsp]

/-- Claim C5, amended: on the end of a `family` element, the loader splits
the family's language attribute on comma first, else on space, else treats
it as a single tag, and appends exactly one clone per resulting tag, each
identical to the original except for its language tag (a family with no
language tag is appended as-is); consequently no stored family's language
tag contains a comma — but a tag produced by comma-splitting may still
contain spaces, so a space-separated multi-tag can be stored (see
`c5_counterexample_space_tag_survives`, refuting the claim's "never contains
a multi-tag family"). -/
theorem c5_end_family_expands_lang_tags (st : ParseState) :
    step st (XmlEvent.endElement ("family"))
        = some { st with
            currentElements := st.currentElements.tail,
            fontFamilies := st.fontFamilies ++ expandFamilySpec st.family }
      ∧ ∀ fm ∈ expandFamilySpec st.family, ∀ l2, fm.lang = some l2 →
          containsChar l2 ',' = false := by
  constructor
  · rw [← expandFamily_eq_spec]
    rfl
  · intro fm hm l2 hl2
    rw [expandFamilySpec] at hm
    split at hm
    next l heq =>
      obtain ⟨t, htm, htf⟩ := List.mem_map.mp hm
      rw [← htf] at hl2
      simp at hl2
      subst hl2
      exact splitLangSpec_no_comma l t htm
    next heq =>
      simp at hm
      subst hm
      rw [heq] at hl2
      simp at hl2

/-- Counterexample to claim C5 as stated: loading a family with
`lang="a,b c"` stores a clone whose language tag is `"b c"` — a
space-separated list of two tags, i.e. a multi-tag family in the stored
model. -/
theorem c5_counterexample_space_tag_survives :
    parseEvents c5Events = some (c5Families, [])
      ∧ ({ name := none, lang := some ("b c"), variant := none,
           fonts := [] } : FontFamily) ∈ c5Families
      ∧ containsChar ("b c") ' ' = true
      ∧ (splitChar ("b c") ' ').length = 2 :=
  ⟨by decide, by decide, by decide, by decide⟩

/-! ## Dropping of stray fonts (claim C8) -/

/-- Claim C8, amended: a `font` element that closes while not immediately
enclosed by a `family` element, or that never received text content, is
dropped without being added to any family and without panicking — PROVIDED
some element still encloses it or its path is unset.  (A path-bearing font
closing as the outermost open element panics on the stack `unwrap`; see
`c8_counterexample_outermost_font_panics`, refuting the claim's unconditional
"does not panic".) -/
theorem c8_stray_font_dropped_without_panic (st : ParseState)
    (h : st.font.path = none
        ∨ (st.currentElements.tail ≠ []
            ∧ st.currentElements.tail.head? ≠ some ("family"))) :
    step st (XmlEvent.endElement ("font"))
      = some { st with currentElements := st.currentElements.tail } := by
  rcases h with hp | ⟨hne, hhd⟩
  · have hps : st.font.path.isSome = false := by rw [hp]; rfl
    simp [step, hps]
  · cases hcs : st.currentElements.tail with
    | nil => exact absurd hcs hne
    | cons a as =>
      rw [hcs] at hhd
      have ha : ¬(a = "family") := by
        intro heq
        exact hhd (by rw [heq]; rfl)
      by_cases hps : st.font.path.isSome
      · simp [step, hps, hcs, ha]
      · simp [step, hps, hcs]

theorem c8_stray_font_dropped_without_panic_witness :
    (c8State.font.path = none
        ∨ (c8State.currentElements.tail ≠ []
            ∧ c8State.currentElements.tail.head? ≠ some ("family")))
      ∧ step c8State (XmlEvent.endElement ("font"))
        = some { c8State with currentElements := c8State.currentElements.tail } :=
  ⟨by decide, c8_stray_font_dropped_without_panic c8State (by decide)⟩

/-- Counterexample to claim C8 as stated: a path-bearing `<font>` closing as
the outermost open element makes the loader panic (the processing of the
preceding events succeeds, the whole stream maps to `none`). -/
theorem c8_counterexample_outermost_font_panics :
    (runEvents [XmlEvent.startElement ("font") [],
        XmlEvent.characters ("x.ttf")] ParseState.initial).isSome = true
      ∧ parseEvents c8Events = none :=
  ⟨by decide, by decide⟩

/-! ## Round-trip over load then query (claim C7) -/

theorem runEvents_append (l1 l2 : List XmlEvent) :
    ∀ st, runEvents (l1 ++ l2) st = (runEvents l1 st).bind (runEvents l2) := by
  induction l1 with
  | nil => intro st; rfl
  | cons e rest ih =>
    intro st
    cases h : step st e with
    | none => simp [runEvents, h]
    | some st1 => simp [runEvents, h, ih st1]

theorem parseFamilyAux_lang (attrs : List (String × String)) :
    ∀ fam, (parseFamilyAux fam attrs).lang = langTagsAux fam.lang attrs := by
  induction attrs with
  | nil => intro fam; rfl
  | cons attr rest ih =>
    intro fam
    rw [parseFamilyAux, langTagsAux]
    by_cases h1 : attr.1 = "lang"
    · simp [h1, ih]
    · by_cases h2 : attr.1 = "name"
      · simp [h1, h2, ih]
      · by_cases h3 : attr.1 = "variant"
        · simp [h1, h2, h3, ih]
        · simp [h1, h2, h3, ih]

theorem parseFontAux_fields (attrs : List (String × String)) :
    ∀ font fe, parseFontAux font attrs = some fe →
      fe.path = font.path ∧ fe.axis = font.axis
        ∧ fe.index = expectedIndexAux font.index attrs := by
  induction attrs with
  | nil =>
    intro font fe h
    rw [parseFontAux] at h
    simp at h
    subst h
    exact ⟨rfl, rfl, rfl⟩
  | cons attr rest ih =>
    intro font fe h
    rw [parseFontAux] at h
    rw [expectedIndexAux]
    by_cases h1 : attr.1 = "weight"
    · rw [if_pos h1] at h
      have hne : ¬(attr.1 = "index") := by rw [h1]; decide
      cases hw : parseI32 attr.2 with
      | none => rw [hw] at h; simp at h
      | some w =>
        rw [hw] at h
        simpa [hne] using ih _ _ h
    · rw [if_neg h1] at h
      by_cases h2 : attr.1 = "style"
      · rw [if_pos h2] at h
        have hne : ¬(attr.1 = "index") := by rw [h2]; decide
        by_cases hs1 : attr.2 = "normal"
        · rw [if_pos hs1] at h
          simpa [hne] using ih _ _ h
        · rw [if_neg hs1] at h
          by_cases hs2 : attr.2 = "italic"
          · rw [if_pos hs2] at h
            simpa [hne] using ih _ _ h
          · rw [if_neg hs2] at h
            simpa [hne] using ih _ _ h
      · rw [if_neg h2] at h
        by_cases h3 : attr.1 = "fallbackFor"
        · rw [if_pos h3] at h
          have hne : ¬(attr.1 = "index") := by rw [h3]; decide
          simpa [hne] using ih _ _ h
        · rw [if_neg h3] at h
          by_cases h4 : attr.1 = "index"
          · rw [if_pos h4] at h
            cases hw : parseI32 attr.2 with
            | none => rw [hw] at h; simp at h
            | some i =>
              rw [hw] at h
              simpa [h4, hw] using ih _ _ h
          · rw [if_neg h4] at h
            simpa [h4] using ih _ _ h

theorem parseFont_facts (attrs : List (String × String)) (fe : FontEntry)
    (h : parseFont attrs = some fe) :
    fe.path = none ∧ fe.axis = [] ∧ fe.index = expectedIndex attrs :=
  parseFontAux_fields attrs FontEntry.new fe h

theorem runEvents_cons (e : XmlEvent) (l : List XmlEvent) (st : ParseState) :
    runEvents (e :: l) st = (step st e).bind (runEvents l) := by
  cases h : step st e <;> simp [runEvents, h]

theorem runEvents_singleton (e : XmlEvent) (st : ParseState) :
    runEvents [e] st = step st e := by
  cases h : step st e <;> simp [runEvents, h]

theorem text_run (t : Option String) (st : ParseState)
    (h : st.currentElements.head? = some ("font")) :
    runEvents (textEvents t) st
      = some { st with font := { st.font with path := textPath st.font.path t } } := by
  cases t with
  | none => rfl
  | some s =>
    by_cases hts : rustTrim s = ""
    · by_cases hse : s = ""
      · subst hse
        have hre : rustTrim ("") = "" := rfl
        simp [textEvents, textPath, runEvents, hre]
      · simp [textEvents, hts, hse, textPath, runEvents, step]
    · simp [textEvents, hts, textPath, runEvents, step, h]

theorem axes_run (axes : List (List (String × String))) :
    ∀ st, st.currentElements.head? = some ("font") →
      runEvents (axes.flatMap axisEvents) st
        = some { st with font := { st.font with axis := st.font.axis ++ axes.map parseAxis } } := by
  induction axes with
  | nil =>
    intro st h
    simp [runEvents]
  | cons a rest ih =>
    intro st h
    have h2 := ih { st with
        currentElements := st.currentElements,
        font := { st.font with axis := st.font.axis ++ [parseAxis a] } } (by simpa using h)
    simp only [List.flatMap_cons, axisEvents, List.cons_append, List.nil_append]
    simp [runEvents, step, h2, List.append_assoc]

theorem font_run_fail (f : MFont) (st : ParseState)
    (hpf : parseFont f.attributes = none) :
    runEvents (fontEvents f) st = none := by
  simp [fontEvents, runEvents, step, hpf]

theorem font_run_ok (f : MFont) (st : ParseState) (e : String) (rest : List String)
    (hst : st.currentElements = e :: rest) (fe : FontEntry)
    (hpf : parseFont f.attributes = some fe) :
    runEvents (fontEvents f) st
      = some { st with
          font := finishedFont fe f,
          family :=
            if e = "family" ∧ (finishedFont fe f).path.isSome = true then
              { st.family with fonts := st.family.fonts ++ [finishedFont fe f] }
            else st.family } := by
  have hsplit : fontEvents f
      = XmlEvent.startElement ("font") f.attributes
          :: (textEvents f.text ++ (f.axes.flatMap axisEvents ++ [XmlEvent.endElement ("font")])) := by
    simp [fontEvents]
  have hstep : step st (XmlEvent.startElement ("font") f.attributes)
      = some { st with currentElements := "font" :: st.currentElements, font := fe } := by
    simp [step, hpf]
  have e2 : runEvents (textEvents f.text)
      { st with currentElements := "font" :: st.currentElements, font := fe }
      = some { st with
          currentElements := "font" :: st.currentElements,
          font := { fe with path := textPath fe.path f.text } } := by
    rw [text_run f.text
      { st with currentElements := "font" :: st.currentElements, font := fe } rfl]
  have e3 : runEvents (f.axes.flatMap axisEvents)
      { st with
        currentElements := "font" :: st.currentElements,
        font := { fe with path := textPath fe.path f.text } }
      = some { st with
          currentElements := "font" :: st.currentElements,
          font := finishedFont fe f } := by
    rw [axes_run f.axes
      { st with
        currentElements := "font" :: st.currentElements,
        font := { fe with path := textPath fe.path f.text } } rfl]
    rfl
  rw [hsplit, runEvents_cons, hstep]
  simp only [Option.some_bind]
  rw [runEvents_append, e2]
  simp only [Option.some_bind]
  rw [runEvents_append, e3]
  simp only [Option.some_bind]
  rw [runEvents_singleton]
  show step { st with
      currentElements := "font" :: st.currentElements,
      font := finishedFont fe f } (XmlEvent.endElement ("font")) = _
  by_cases hps : (finishedFont fe f).path.isSome = true
  · by_cases he : e = "family"
    · simp [step, hps, he, hst]
    · simp [step, hps, he, hst]
  · simp [step, hps, hst]

theorem font_run_ok_stored (f : MFont) (st : ParseState) (e : String) (rest : List String)
    (hst : st.currentElements = e :: rest) (fe : FontEntry)
    (hpf : parseFont f.attributes = some fe) (he : e = "family")
    (hips : (finishedFont fe f).path.isSome = true) :
    runEvents (fontEvents f) st
      = some { st with
          font := finishedFont fe f,
          family := { st.family with fonts := st.family.fonts ++ [finishedFont fe f] } } := by
  rw [font_run_ok f st e rest hst fe hpf, if_pos ⟨he, hips⟩]

theorem font_run_ok_dropped (f : MFont) (st : ParseState) (e : String) (rest : List String)
    (hst : st.currentElements = e :: rest) (fe : FontEntry)
    (hpf : parseFont f.attributes = some fe)
    (hcond : ¬(e = "family" ∧ (finishedFont fe f).path.isSome = true)) :
    runEvents (fontEvents f) st = some { st with font := finishedFont fe f } := by
  rw [font_run_ok f st e rest hst fe hpf, if_neg hcond]

theorem fonts_run (fonts : List MFont) :
    ∀ st rest2, st.currentElements = "family" :: rest2 →
      (storedFonts fonts = none → runEvents (fonts.flatMap fontEvents) st = none)
        ∧ (∀ fs, storedFonts fonts = some fs →
            ∃ fnt, runEvents (fonts.flatMap fontEvents) st
              = some { st with
                  font := fnt,
                  family := { st.family with fonts := st.family.fonts ++ fs } }) := by
  induction fonts with
  | nil =>
    intro st rest2 hst
    constructor
    · intro h
      rw [storedFonts] at h
      simp at h
    · intro fs h
      rw [storedFonts] at h
      simp only [Option.some.injEq] at h
      subst h
      refine ⟨st.font, ?_⟩
      simp [runEvents]
  | cons f fonts ih =>
    intro st rest2 hst
    constructor
    · intro h
      rw [storedFonts] at h
      rw [List.flatMap_cons, runEvents_append]
      cases hpf : parseFont f.attributes with
      | none =>
        rw [font_run_fail f st hpf]
        rfl
      | some fe =>
        rw [hpf] at h
        cases hsf : storedFonts fonts with
        | some fs => rw [hsf] at h; simp at h
        | none =>
          by_cases hips : (finishedFont fe f).path.isSome = true
          · rw [font_run_ok_stored f st "family" rest2 hst fe hpf rfl hips]
            simp only [Option.some_bind]
            exact (ih { st with
                font := finishedFont fe f,
                family := { st.family with
                  fonts := st.family.fonts ++ [finishedFont fe f] } } rest2 hst).1 hsf
          · rw [font_run_ok_dropped f st "family" rest2 hst fe hpf (by simp [hips])]
            simp only [Option.some_bind]
            exact (ih { st with font := finishedFont fe f } rest2 hst).1 hsf
    · intro fs h
      rw [storedFonts] at h
      rw [List.flatMap_cons, runEvents_append]
      cases hpf : parseFont f.attributes with
      | none => rw [hpf] at h; simp at h
      | some fe =>
        rw [hpf] at h
        cases hsf : storedFonts fonts with
        | none => rw [hsf] at h; simp at h
        | some fs2 =>
          rw [hsf] at h
          simp only [Option.map_some', Option.some.injEq] at h
          by_cases hips : (finishedFont fe f).path.isSome = true
          · rw [font_run_ok_stored f st "family" rest2 hst fe hpf rfl hips]
            simp only [Option.some_bind]
            obtain ⟨fnt, hrun⟩ := (ih { st with
                font := finishedFont fe f,
                family := { st.family with
                  fonts := st.family.fonts ++ [finishedFont fe f] } } rest2 hst).2 fs2 hsf
            refine ⟨fnt, ?_⟩
            rw [hrun, ← h]
            simp [hips, List.append_assoc]
          · rw [font_run_ok_dropped f st "family" rest2 hst fe hpf (by simp [hips])]
            simp only [Option.some_bind]
            obtain ⟨fnt, hrun⟩ := (ih { st with
                font := finishedFont fe f } rest2 hst).2 fs2 hsf
            refine ⟨fnt, ?_⟩
            rw [hrun, ← h]
            simp [hips]

theorem step_end_family (stX : ParseState) :
    step stX (XmlEvent.endElement ("family"))
      = some { stX with
          currentElements := stX.currentElements.tail,
          fontFamilies := stX.fontFamilies ++ expandFamily stX.family } := rfl

theorem family_run (fam : MFamily) (st : ParseState) :
    (storedFonts fam.fonts = none → runEvents (familyEvents fam) st = none)
      ∧ (∀ fs, storedFonts fam.fonts = some fs →
          ∃ fnt fm, runEvents (familyEvents fam) st
            = some { st with
                font := fnt,
                family := fm,
                fontFamilies := st.fontFamilies
                  ++ expandFamily { parseFamily fam.attributes with
                       fonts := (parseFamily fam.attributes).fonts ++ fs } }) := by
  have hsplit : familyEvents fam
      = XmlEvent.startElement ("family") fam.attributes
          :: (fam.fonts.flatMap fontEvents ++ [XmlEvent.endElement ("family")]) := by
    simp [familyEvents]
  have hstep : step st (XmlEvent.startElement ("family") fam.attributes)
      = some { st with
          currentElements := "family" :: st.currentElements,
          family := parseFamily fam.attributes } := by
    simp [step]
  constructor
  · intro h
    rw [hsplit, runEvents_cons, hstep]
    simp only [Option.some_bind]
    rw [runEvents_append]
    rw [(fonts_run fam.fonts { st with
        currentElements := "family" :: st.currentElements,
        family := parseFamily fam.attributes } st.currentElements rfl).1 h]
    rfl
  · intro fs h
    rw [hsplit, runEvents_cons, hstep]
    simp only [Option.some_bind]
    rw [runEvents_append]
    obtain ⟨fnt, hrun⟩ := (fonts_run fam.fonts { st with
        currentElements := "family" :: st.currentElements,
        family := parseFamily fam.attributes } st.currentElements rfl).2 fs h
    rw [hrun]
    simp only [Option.some_bind]
    rw [runEvents_singleton, step_end_family]
    exact ⟨fnt, { parseFamily fam.attributes with
      fonts := (parseFamily fam.attributes).fonts ++ fs }, rfl⟩

theorem item_run (item : MItem) (st : ParseState) (e : String) (rest2 : List String)
    (hst : st.currentElements = e :: rest2) (hne : ¬(e = "family")) :
    (itemContrib item = none → runEvents (itemEvents item) st = none)
      ∧ (∀ c, itemContrib item = some c →
          ∃ fnt fm, runEvents (itemEvents item) st
            = some { st with
                font := fnt,
                family := fm,
                fontFamilies := st.fontFamilies ++ c.1,
                fontAliases := st.fontAliases ++ c.2 }) := by
  cases item with
  | fam f =>
    constructor
    · intro h
      rw [itemContrib] at h
      cases hsf : storedFonts f.fonts with
      | some fs => rw [hsf] at h; simp at h
      | none => exact (family_run f st).1 hsf
    · intro c h
      rw [itemContrib] at h
      cases hsf : storedFonts f.fonts with
      | none => rw [hsf] at h; simp at h
      | some fs =>
        rw [hsf] at h
        simp only [Option.map_some', Option.some.injEq] at h
        obtain ⟨fnt, fm, hrun⟩ := (family_run f st).2 fs hsf
        refine ⟨fnt, fm, ?_⟩
        rw [show itemEvents (MItem.fam f) = familyEvents f from rfl, hrun, ← h]
        simp
  | aliasItem a =>
    constructor
    · intro h
      rw [itemContrib] at h
      cases hpa : parseAlias a with
      | some al => rw [hpa] at h; simp at h
      | none => simp [itemEvents, runEvents, step, hpa]
    · intro c h
      rw [itemContrib] at h
      cases hpa : parseAlias a with
      | none => rw [hpa] at h; simp at h
      | some al =>
        rw [hpa] at h
        simp only [Option.map_some', Option.some.injEq] at h
        refine ⟨st.font, st.family, ?_⟩
        rw [← h]
        simp [itemEvents, runEvents, step, hpa]
  | strayFont f =>
    constructor
    · intro h
      rw [itemContrib] at h
      cases hpf : parseFont f.attributes with
      | some fe => rw [hpf] at h; simp at h
      | none => exact font_run_fail f st hpf
    · intro c h
      rw [itemContrib] at h
      cases hpf : parseFont f.attributes with
      | none => rw [hpf] at h; simp at h
      | some fe =>
        rw [hpf] at h
        simp only [Option.map_some', Option.some.injEq] at h
        refine ⟨finishedFont fe f, st.family, ?_⟩
        rw [show itemEvents (MItem.strayFont f) = fontEvents f from rfl]
        rw [font_run_ok_dropped f st e rest2 hst fe hpf (by simp [hne])]
        rw [← h]
        simp

theorem items_run (items : List MItem) :
    ∀ st e rest2, st.currentElements = e :: rest2 → ¬(e = "family") →
      (itemsContrib items = none → runEvents (items.flatMap itemEvents) st = none)
        ∧ (∀ c, itemsContrib items = some c →
            ∃ fnt fm, runEvents (items.flatMap itemEvents) st
              = some { st with
                  font := fnt,
                  family := fm,
                  fontFamilies := st.fontFamilies ++ c.1,
                  fontAliases := st.fontAliases ++ c.2 }) := by
  induction items with
  | nil =>
    intro st e rest2 hst hne
    constructor
    · intro h; rw [itemsContrib] at h; simp at h
    · intro c h
      rw [itemsContrib] at h
      simp only [Option.some.injEq] at h
      refine ⟨st.font, st.family, ?_⟩
      rw [← h]
      simp [runEvents]
  | cons item items ih =>
    intro st e rest2 hst hne
    constructor
    · intro h
      rw [itemsContrib] at h
      rw [List.flatMap_cons, runEvents_append]
      cases hic : itemContrib item with
      | none =>
        rw [(item_run item st e rest2 hst hne).1 hic]
        rfl
      | some c1 =>
        rw [hic] at h
        cases hics : itemsContrib items with
        | some cs => rw [hics] at h; simp at h
        | none =>
          obtain ⟨fnt, fm, hrun⟩ := (item_run item st e rest2 hst hne).2 c1 hic
          rw [hrun]
          simp only [Option.some_bind]
          exact (ih { st with
              font := fnt,
              family := fm,
              fontFamilies := st.fontFamilies ++ c1.1,
              fontAliases := st.fontAliases ++ c1.2 } e rest2 hst hne).1 hics
    · intro c h
      rw [itemsContrib] at h
      rw [List.flatMap_cons, runEvents_append]
      cases hic : itemContrib item with
      | none => rw [hic] at h; simp at h
      | some c1 =>
        rw [hic] at h
        cases hics : itemsContrib items with
        | none => rw [hics] at h; simp at h
        | some cs =>
          rw [hics] at h
          simp only [Option.map_some', Option.some.injEq] at h
          obtain ⟨fnt, fm, hrun⟩ := (item_run item st e rest2 hst hne).2 c1 hic
          rw [hrun]
          simp only [Option.some_bind]
          obtain ⟨fnt2, fm2, hrun2⟩ := (ih { st with
              font := fnt,
              family := fm,
              fontFamilies := st.fontFamilies ++ c1.1,
              fontAliases := st.fontAliases ++ c1.2 } e rest2 hst hne).2 cs hics
          refine ⟨fnt2, fm2, ?_⟩
          rw [hrun2, ← h]
          simp [List.append_assoc]

theorem parse_manifest (items : List MItem) :
    parseEvents (manifestEvents items) = itemsContrib items := by
  rw [parseEvents]
  have hsplit : manifestEvents items
      = XmlEvent.startElement ("familyset") []
          :: (items.flatMap itemEvents ++ [XmlEvent.endElement ("familyset")]) := by
    simp [manifestEvents]
  have hstep : step ParseState.initial (XmlEvent.startElement ("familyset") [])
      = some { ParseState.initial with currentElements := ["familyset"] } := rfl
  rw [hsplit, runEvents_cons, hstep]
  simp only [Option.some_bind]
  rw [runEvents_append]
  cases hics : itemsContrib items with
  | none =>
    rw [(items_run items { ParseState.initial with currentElements := ["familyset"] }
      "familyset" [] rfl (by decide)).1 hics]
    rfl
  | some c =>
    obtain ⟨fnt, fm, hrun⟩ := (items_run items
      { ParseState.initial with currentElements := ["familyset"] }
      "familyset" [] rfl (by decide)).2 c hics
    rw [hrun]
    simp only [Option.some_bind]
    rw [runEvents_singleton]
    rfl

theorem parseFamily_lang (attrs : List (String × String)) :
    (parseFamily attrs).lang = langTags attrs := by
  rw [parseFamily, parseFamilyAux_lang]
  rfl

theorem finishedFont_path (f : MFont) (fe : FontEntry)
    (hpf : parseFont f.attributes = some fe) :
    (finishedFont fe f).path = mfontPath f := by
  have h := (parseFont_facts f.attributes fe hpf).1
  show textPath fe.path f.text = mfontPath f
  rw [h, mfontPath]
  cases ht : f.text with
  | none => rfl
  | some s => rfl

theorem storedFonts_pairs (fonts : List MFont) :
    ∀ fs, storedFonts fonts = some fs →
      fs.filterMap (fun font => font.path.map (fun p => (p, font.index)))
        = expectedFontPairs fonts := by
  induction fonts with
  | nil =>
    intro fs h
    rw [storedFonts] at h
    simp only [Option.some.injEq] at h
    subst h
    rfl
  | cons f fonts ih =>
    intro fs h
    rw [storedFonts] at h
    cases hpf : parseFont f.attributes with
    | none => rw [hpf] at h; simp at h
    | some fe =>
      rw [hpf] at h
      cases hsf : storedFonts fonts with
      | none => rw [hsf] at h; simp at h
      | some fs2 =>
        rw [hsf] at h
        simp only [Option.map_some', Option.some.injEq] at h
        subst h
        have hpath := finishedFont_path f fe hpf
        have hidx : (finishedFont fe f).index = expectedIndex f.attributes :=
          (parseFont_facts f.attributes fe hpf).2.2
        rw [List.filterMap_append, ih fs2 hsf]
        cases hp : (finishedFont fe f).path with
        | some p =>
          have hm : mfontPath f = some p := by rw [← hpath, hp]
          simp [expectedFontPairs, List.filterMap_cons, hm, hp, hidx]
        | none =>
          have hm : mfontPath f = none := by rw [← hpath, hp]
          simp [expectedFontPairs, List.filterMap_cons, hm]

theorem flatten_map_const_filterMap (fonts : List FontEntry) :
    ∀ l : List FontFamily, (∀ fm ∈ l, fm.fonts = fonts) →
      ((l.map (fun fm => fm.fonts)).flatten).filterMap
          (fun font => font.path.map (fun p => (p, font.index)))
        = l.flatMap (fun _ =>
            fonts.filterMap (fun font => font.path.map (fun p => (p, font.index)))) := by
  intro l
  induction l with
  | nil => intro hl; rfl
  | cons fm rest ih =>
    intro hl
    have h1 : fm.fonts = fonts := hl fm (List.mem_cons_self fm rest)
    have h2 := ih (fun x hx => hl x (List.mem_cons_of_mem fm hx))
    simp [List.flatten_cons, List.filterMap_append, h1, h2, List.flatMap_cons]

theorem flatMap_map_const {α : Type} {β : Type} (m : List α) (cl : α → β)
    (P : List (String × Int)) :
    (m.map cl).flatMap (fun _ => P) = m.flatMap (fun _ => P) := by
  induction m with
  | nil => rfl
  | cons a rest ih => simp [List.flatMap_cons, ih]

theorem itemContrib_paths (item : MItem) :
    ∀ c, itemContrib item = some c →
      ((c.1.map (fun fm => fm.fonts)).flatten).filterMap
          (fun font => font.path.map (fun p => (p, font.index)))
        = (match item with
            | MItem.fam f => expectedFamilyPaths f
            | _ => []) := by
  cases item with
  | fam f =>
    intro c h
    rw [itemContrib] at h
    cases hsf : storedFonts f.fonts with
    | none => rw [hsf] at h; simp at h
    | some fs =>
      rw [hsf] at h
      simp only [Option.map_some', Option.some.injEq] at h
      rw [← h]
      have hfonts : (parseFamily f.attributes).fonts = [] := by
        rw [parseFamily, parseFamilyAux_fonts]
        rfl
      have hF : ({ parseFamily f.attributes with
          fonts := (parseFamily f.attributes).fonts ++ fs } : FontFamily).fonts = fs := by
        rw [show ({ parseFamily f.attributes with
          fonts := (parseFamily f.attributes).fonts ++ fs } : FontFamily).fonts
            = (parseFamily f.attributes).fonts ++ fs from rfl, hfonts, List.nil_append]
      rw [flatten_map_const_filterMap fs _
        (fun fm hm => by rw [expandFamily_fonts _ fm hm, hF])]
      rw [storedFonts_pairs f.fonts fs hsf]
      rw [expandFamily_eq_spec, expandFamilySpec]
      have hlang : ({ parseFamily f.attributes with
          fonts := (parseFamily f.attributes).fonts ++ fs } : FontFamily).lang
            = langTags f.attributes := by
        rw [show ({ parseFamily f.attributes with
          fonts := (parseFamily f.attributes).fonts ++ fs } : FontFamily).lang
            = (parseFamily f.attributes).lang from rfl, parseFamily_lang]
      rw [hlang]
      cases hl : langTags f.attributes with
      | some l => simp [hl, expectedFamilyPaths, flatMap_map_const]
      | none => simp [hl, expectedFamilyPaths]
  | aliasItem a =>
    intro c h
    rw [itemContrib] at h
    cases hpa : parseAlias a with
    | none => rw [hpa] at h; simp at h
    | some al =>
      rw [hpa] at h
      simp only [Option.map_some', Option.some.injEq] at h
      rw [← h]
      rfl
  | strayFont f =>
    intro c h
    rw [itemContrib] at h
    cases hpf : parseFont f.attributes with
    | none => rw [hpf] at h; simp at h
    | some fe =>
      rw [hpf] at h
      simp only [Option.map_some', Option.some.injEq] at h
      rw [← h]
      rfl

theorem itemsContrib_paths (items : List MItem) :
    ∀ c, itemsContrib items = some c →
      ((c.1.map (fun fm => fm.fonts)).flatten).filterMap
          (fun font => font.path.map (fun p => (p, font.index)))
        = expectedAllFontPaths items := by
  induction items with
  | nil =>
    intro c h
    rw [itemsContrib] at h
    simp only [Option.some.injEq] at h
    rw [← h]
    rfl
  | cons item items ih =>
    intro c h
    rw [itemsContrib] at h
    cases hic : itemContrib item with
    | none => rw [hic] at h; simp at h
    | some c1 =>
      rw [hic] at h
      cases hics : itemsContrib items with
      | none => rw [hics] at h; simp at h
      | some cs =>
        rw [hics] at h
        simp only [Option.map_some', Option.some.injEq] at h
        rw [← h]
        simp only [List.map_append, List.flatten_append, List.filterMap_append]
        rw [itemContrib_paths item c1 hic, ih cs hics]
        simp only [expectedAllFontPaths, List.flatMap_cons]

/-- Claim C7: round-trip over load then query.  For every manifest (families
with fonts and axes, aliases, stray fonts outside any family) whose event
stream loads successfully, `all_font_paths` returns exactly the expected
list: per `<family>`, one copy per split language tag of the `(path, index)`
pairs of its fonts with non-empty non-whitespace text content, in manifest
order (duplicates included); fonts with empty or whitespace-only text and
fonts outside a `<family>` are excluded. -/
theorem c7_all_font_paths_roundtrip (items : List MItem) (fams : List FontFamily)
    (als : List FontAlias)
    (h : parseEvents (manifestEvents items) = some (fams, als)) :
    AndroidFontConfig.all_font_paths { font_families := fams, font_aliases := als }
      = expectedAllFontPaths items := by
  rw [parse_manifest] at h
  exact itemsContrib_paths items (fams, als) h

theorem c7_all_font_paths_roundtrip_witness :
    parseEvents (manifestEvents wItems) = some (wmFamilies, wmAliases)
      ∧ AndroidFontConfig.all_font_paths
          { font_families := wmFamilies, font_aliases := wmAliases }
        = expectedAllFontPaths wItems :=
  ⟨by decide, c7_all_font_paths_roundtrip wItems wmFamilies wmAliases (by decide)⟩
